import Mathlib

/-!
Verification development for the `shapley-cli` repository.

The repository contains a single adapter (`src/shapley-cli/src/main.rs`) that
reads a `ShapleyInput` from stdin, calls `compute` from the external
`network_shapley` crate, and prints the resulting operator values and
proportions.  The valuation engine itself (topology validation, coalition
valuation, exact Shapley allocation, normalization) is not part of the
repository's sources, so it is modelled here from the specification; the
adapter is embedded from `main.rs`.

All real-number quantities are modelled as exact rationals (`ℚ`): the
specification's floating-point tolerances become exact equalities.
-/

namespace NetworkShapley

/-- Modelled from the spec (§3): a network device, with a unique identifier
and a location label. -/
structure Device where
  device : String
  location : String
deriving DecidableEq

/-- Modelled from the spec (§3): a directed edge owned by exactly one
operator, with endpoints, capacity and latency/cost. -/
structure PrivateLink where
  device1 : String
  device2 : String
  owner : String
  capacity : ℚ
  cost : ℚ
deriving DecidableEq

/-- Modelled from the spec (§3): an edge with no operator attribution, always
available regardless of coalition. -/
structure PublicLink where
  device1 : String
  device2 : String
  capacity : ℚ
  cost : ℚ
deriving DecidableEq

/-- Modelled from the spec (§3): a required traffic flow between two devices. -/
structure Demand where
  source : String
  dest : String
  volume : ℚ
deriving DecidableEq

/-- Modelled from the spec (§3): aggregate input of the engine, matching the
field layout deserialized by the adapter's `InputJson`. -/
structure ShapleyInput where
  private_links : List PrivateLink
  devices : List Device
  demands : List Demand
  public_links : List PublicLink
  operator_uptime : ℚ
  contiguity_bonus : ℚ
  demand_multiplier : ℚ

/-- Output entry of the adapter (`OperatorValue` in `main.rs`): operator
identifier, raw Shapley value, and normalized proportion. -/
structure OperatorValue where
  operator : String
  value : ℚ
  proportion : ℚ
deriving DecidableEq

/-- Modelled from the spec (§7): the engine's error kinds.  `NumericError`
is handled by the §4.4 policy rather than raised, so it has no constructor. -/
inductive EngineError where
  | validationError : EngineError
  | computationOverflowError : EngineError
deriving DecidableEq

/-- An edge of the working graph: a public link (no owner) or a private link
(owned), with its effective capacity after uptime derating. -/
structure Edge where
  src : String
  dst : String
  owner : Option String
  cap : ℚ
  cost : ℚ
deriving DecidableEq

/-- Modelled from the spec (§4.2 step 4): a private link enters the graph with
its capacity derated by `operator_uptime`. -/
def privateEdge (uptime : ℚ) (l : PrivateLink) : Edge :=
  ⟨l.device1, l.device2, some l.owner, l.capacity * uptime, l.cost⟩

/-- A public link enters the graph at nominal capacity. -/
def publicEdge (l : PublicLink) : Edge :=
  ⟨l.device1, l.device2, none, l.capacity, l.cost⟩

/-- Modelled from the spec (§4.2): the links available to a coalition `S` are
all public links plus the private links whose owner is a member of `S`. -/
def availableEdges (inp : ShapleyInput) (S : Finset String) : List Edge :=
  inp.public_links.map publicEdge ++
    (inp.private_links.filter (fun l => l.owner ∈ S)).map (privateEdge inp.operator_uptime)

/-- `chainOk a b p` holds when the nonempty edge sequence `p` forms a path
from device `a` to device `b` (consecutive edges connect head to tail). -/
def chainOk : String → String → List Edge → Bool
  | _, _, [] => false
  | a, b, [e] => decide (e.src = a) && decide (e.dst = b)
  | a, b, e :: e2 :: p => decide (e.src = a) && chainOk e.dst b (e2 :: p)

/-- All sequences of pairwise-distinct positions of `edges`: every sublist in
every order.  Candidate paths are drawn from this finite collection. -/
def edgeSeqs (edges : List Edge) : List (List Edge) :=
  edges.sublists.flatMap List.permutations'

/-- Modelled from the spec (§4.2 step 1): the candidate paths from `a` to `b`
over the available edges. -/
def pathsFor (edges : List Edge) (a b : String) : List (List Edge) :=
  (edgeSeqs edges).filter (chainOk a b)

/-- The bottleneck (minimum effective capacity) of a path. -/
def bottleneck : List Edge → ℚ
  | [] => 0
  | [e] => e.cap
  | e :: e2 :: p => min e.cap (bottleneck (e2 :: p))

/-- The owners of the private links on a path. -/
def pathOwners (p : List Edge) : List String :=
  p.filterMap Edge.owner

/-- Modelled from the spec (§4.2 step 5): a path is contiguous when it uses at
least one private link and every private link on it belongs to one operator. -/
def contiguous (p : List Edge) : Bool :=
  match pathOwners p with
  | [] => false
  | o :: os => os.all (fun x => decide (x = o))

/-- Modelled from the spec (§4.2 steps 3-5, fixing the open question of §9
deterministically): the contribution a path gives toward a demand, namely
`min(bottleneck, volume) * demand_multiplier`, scaled by the multiplicative
contiguity factor `1 + contiguity_bonus` when the path is contiguous.  The
multiplicative rule is chosen so that a zero-volume demand contributes zero
(§4.2 error conditions, Scenario D). -/
def pathScore (inp : ShapleyInput) (d : Demand) (p : List Edge) : ℚ :=
  min (bottleneck p) d.volume * inp.demand_multiplier *
    (if contiguous p then 1 + inp.contiguity_bonus else 1)

/-- Maximum of a list of rationals, with `0` for the empty list: the value of
the always-available option of serving nothing. -/
def listMax (l : List ℚ) : ℚ :=
  l.foldr max 0

/-- Modelled from the spec (§4.2): a demand's contribution under a coalition
is the best achievable path score, where "no path" scores `0` (step 2).  The
best path is an argmax over all candidate paths, so that the §4.2 guarantee
(`value` monotone under subset inclusion) holds by construction. -/
def demandContribution (inp : ShapleyInput) (S : Finset String) (d : Demand) : ℚ :=
  listMax ((pathsFor (availableEdges inp S) d.source d.dest).map (pathScore inp d))

/-- Modelled from the spec (§4.2 step 6): the coalition value function, the
sum of all demands' contributions. -/
def coalitionValue (inp : ShapleyInput) (S : Finset String) : ℚ :=
  (inp.demands.map (demandContribution inp S)).sum

/-- First-appearance deduplication, keeping the order of first occurrence. -/
def dedupFirst : List String → List String
  | [] => []
  | a :: l => a :: (dedupFirst l).filter (fun x => x ≠ a)

/-- Modelled from the spec (§4.1): the players of the game, the distinct
operator identifiers in order of first appearance in the private-link list. -/
def operatorsOf (inp : ShapleyInput) : List String :=
  dedupFirst (inp.private_links.map PrivateLink.owner)

/-- The identifiers of the devices in the input. -/
def deviceIds (inp : ShapleyInput) : List String :=
  inp.devices.map Device.device

/-- Modelled from the spec (§4.1): eager validation.  Every link and demand
must reference known device identifiers and every operator identifier must be
nonempty. -/
def validInput (inp : ShapleyInput) : Bool :=
  inp.private_links.all (fun l =>
      decide (l.device1 ∈ deviceIds inp) && decide (l.device2 ∈ deviceIds inp) &&
        decide (l.owner ≠ "")) &&
    inp.public_links.all (fun l =>
      decide (l.device1 ∈ deviceIds inp) && decide (l.device2 ∈ deviceIds inp)) &&
    inp.demands.all (fun d =>
      decide (d.source ∈ deviceIds inp) && decide (d.dest ∈ deviceIds inp))

/-- Modelled from the spec (§4.3): the combinatorial Shapley weight
`|S|! * (N - |S| - 1)! / N!`. -/
def shapleyWeight (n s : ℕ) : ℚ :=
  (Nat.factorial s * Nat.factorial (n - s - 1) : ℚ) / (Nat.factorial n : ℚ)

/-- Modelled from the spec (§4.3): the exact Shapley value of player `i`,
`Σ_{S ⊆ players∖{i}} |S|!(N-|S|-1)!/N! * (v(S ∪ {i}) - v(S))`. -/
def shapleyValue {α : Type} [DecidableEq α] (players : Finset α) (v : Finset α → ℚ)
    (i : α) : ℚ :=
  ∑ S ∈ (players.erase i).powerset,
    shapleyWeight players.card S.card * (v (insert i S) - v S)

/-- Modelled from the spec (§4.3): one raw Shapley value per operator, in the
deterministic operator order. -/
def rawShapley (inp : ShapleyInput) : List (String × ℚ) :=
  (operatorsOf inp).map (fun o =>
    (o, shapleyValue (operatorsOf inp).toFinset (coalitionValue inp) o))

/-- Modelled from the spec (§4.4): normalization.  If the total of raw values
is positive every proportion is `value / total`; otherwise every proportion
is `0` and no error is raised. -/
def normalize (raw : List (String × ℚ)) : List OperatorValue :=
  let total := (raw.map Prod.snd).sum
  raw.map (fun p => ⟨p.1, p.2, if 0 < total then p.2 / total else 0⟩)

/-- Modelled from the spec (§6, §7): the engine's single entry point.
Validation fails first (`ValidationError`), then the operator count is
checked against the configured bound (`ComputationOverflowError`) before any
coalition enumeration, then the raw Shapley values are computed and
normalized. -/
def compute (bound : ℕ) (inp : ShapleyInput) : Except EngineError (List OperatorValue) :=
  if validInput inp = false then .error .validationError
  else if bound < (operatorsOf inp).length then .error .computationOverflowError
  else .ok (normalize (rawShapley inp))

/-- Embedding of `main` from `src/shapley-cli/src/main.rs`: read stdin
(fallible), parse the input JSON (fallible), run `compute` (fallible), and
print the output only when every stage succeeded.  Each `expect` in the
source aborts the process, embedded as `none`: no output is produced. -/
def mainAdapter (stdinResult : Option String) (parse : String → Option ShapleyInput)
    (bound : ℕ) : Option (List OperatorValue) :=
  match stdinResult with
  | none => none
  | some s =>
    match parse s with
    | none => none
    | some inp =>
      match compute bound inp with
      | .error _ => none
      | .ok out => some out

/-! ### Basic lemmas about `listMax` -/

theorem listMax_nil : listMax [] = 0 := rfl

theorem listMax_cons (a : ℚ) (l : List ℚ) : listMax (a :: l) = max a (listMax l) := rfl

theorem listMax_nonneg (l : List ℚ) : 0 ≤ listMax l := by
  induction l with
  | nil => exact le_refl 0
  | cons a l ih => exact le_trans ih (by simp [listMax_cons])

theorem le_listMax_of_mem {a : ℚ} {l : List ℚ} (h : a ∈ l) : a ≤ listMax l := by
  induction l with
  | nil => cases h
  | cons b l ih =>
    rcases List.mem_cons.mp h with h | h
    · subst h; exact le_max_left _ _
    · exact le_trans (ih h) (le_max_right _ _)

theorem listMax_le {c : ℚ} {l : List ℚ} (h0 : 0 ≤ c) (h : ∀ a ∈ l, a ≤ c) :
    listMax l ≤ c := by
  induction l with
  | nil => exact h0
  | cons a l ih =>
    exact max_le (h a (List.mem_cons_self a l)) (ih fun b hb => h b (List.mem_cons_of_mem a hb))

theorem listMax_mono_subset {l₁ l₂ : List ℚ} (h : ∀ a ∈ l₁, a ∈ l₂) :
    listMax l₁ ≤ listMax l₂ :=
  listMax_le (listMax_nonneg l₂) fun a ha => le_listMax_of_mem (h a ha)

/-! ### Path sets grow with the coalition -/

theorem mem_edgeSeqs {p : List Edge} {l : List Edge} :
    p ∈ edgeSeqs l ↔ ∃ s, List.Sublist s l ∧ List.Perm p s := by
  simp only [edgeSeqs, List.mem_flatMap, List.mem_sublists, List.mem_permutations']

theorem edgeSeqs_mono {l₁ l₂ : List Edge} (h : List.Sublist l₁ l₂) {p : List Edge}
    (hp : p ∈ edgeSeqs l₁) : p ∈ edgeSeqs l₂ := by
  rcases mem_edgeSeqs.mp hp with ⟨s, hs, hperm⟩
  exact mem_edgeSeqs.mpr ⟨s, hs.trans h, hperm⟩

theorem availableEdges_sublist {inp : ShapleyInput} {S T : Finset String} (h : S ⊆ T) :
    List.Sublist (availableEdges inp S) (availableEdges inp T) := by
  unfold availableEdges
  refine List.Sublist.append_left ?_ _
  refine List.Sublist.map _ ?_
  refine List.monotone_filter_right _ ?_
  intro l hl
  simp only [decide_eq_true_eq] at *
  exact h hl

theorem pathsFor_mono {l₁ l₂ : List Edge} (h : List.Sublist l₁ l₂) {a b : String} {p : List Edge}
    (hp : p ∈ pathsFor l₁ a b) : p ∈ pathsFor l₂ a b := by
  simp only [pathsFor, List.mem_filter] at *
  exact ⟨edgeSeqs_mono h hp.1, hp.2⟩

theorem demandContribution_mono {inp : ShapleyInput} {S T : Finset String} (h : S ⊆ T)
    (d : Demand) : demandContribution inp S d ≤ demandContribution inp T d := by
  unfold demandContribution
  refine listMax_mono_subset ?_
  intro x hx
  rcases List.mem_map.mp hx with ⟨p, hp, hscore⟩
  exact List.mem_map.mpr ⟨p, pathsFor_mono (availableEdges_sublist h) hp, hscore⟩

/-- The §4.2 guarantee: the coalition value function is monotone
non-decreasing under subset inclusion. -/
theorem coalitionValue_mono {inp : ShapleyInput} {S T : Finset String} (h : S ⊆ T) :
    coalitionValue inp S ≤ coalitionValue inp T := by
  unfold coalitionValue
  exact List.sum_le_sum fun d _ => demandContribution_mono h d

/-! ### The Shapley efficiency identity -/

theorem factorial_ne_zero_q (n : ℕ) : ((Nat.factorial n : ℕ) : ℚ) ≠ 0 := by
  exact_mod_cast Nat.factorial_ne_zero n

theorem weight_top (n : ℕ) (hn : 0 < n) : (n : ℚ) * shapleyWeight n (n - 1) = 1 := by
  unfold shapleyWeight
  have h1 : n - (n - 1) - 1 = 0 := by omega
  rw [h1]
  have h2 : (n : ℚ) * (Nat.factorial (n - 1) * Nat.factorial 0) = Nat.factorial n := by
    rw [Nat.factorial_zero]
    push_cast
    rw [mul_one]
    exact_mod_cast Nat.mul_factorial_pred hn
  rw [mul_div_assoc', h2, div_self (factorial_ne_zero_q n)]

theorem weight_bot (n : ℕ) (hn : 0 < n) : (n : ℚ) * shapleyWeight n 0 = 1 := by
  unfold shapleyWeight
  have h1 : n - 0 - 1 = n - 1 := by omega
  rw [h1]
  have h2 : (n : ℚ) * (Nat.factorial 0 * Nat.factorial (n - 1)) = Nat.factorial n := by
    rw [Nat.factorial_zero]
    push_cast
    rw [one_mul]
    exact_mod_cast Nat.mul_factorial_pred hn
  rw [mul_div_assoc', h2, div_self (factorial_ne_zero_q n)]

theorem weight_mid (n t : ℕ) (h1 : 0 < t) (h2 : t < n) :
    (t : ℚ) * shapleyWeight n (t - 1) = ((n - t : ℕ) : ℚ) * shapleyWeight n t := by
  unfold shapleyWeight
  have e1 : n - (t - 1) - 1 = n - t := by omega
  rw [e1]
  rw [mul_div_assoc', mul_div_assoc']
  congr 1
  have lhs : (t : ℚ) * (Nat.factorial (t - 1) * Nat.factorial (n - t))
      = ((Nat.factorial t * Nat.factorial (n - t) : ℕ) : ℚ) := by
    push_cast
    rw [← mul_assoc]
    congr 1
    exact_mod_cast Nat.mul_factorial_pred h1
  have rhs : ((n - t : ℕ) : ℚ) * (Nat.factorial t * Nat.factorial (n - t - 1))
      = ((Nat.factorial t * Nat.factorial (n - t) : ℕ) : ℚ) := by
    push_cast
    rw [mul_comm ((Nat.factorial t : ℚ)) ((Nat.factorial (n - t - 1) : ℚ)), ← mul_assoc]
    have h3 : 0 < n - t := by omega
    have h4 : ((n - t : ℕ) : ℚ) * (Nat.factorial (n - t - 1)) = (Nat.factorial (n - t)) := by
      exact_mod_cast Nat.mul_factorial_pred h3
    rw [h4]
    ring
  rw [lhs, rhs]

theorem sum_shapleyValue {α : Type} [DecidableEq α] (N : Finset α) (v : Finset α → ℚ) :
    ∑ i ∈ N, shapleyValue N v i = v N - v ∅ := by
  rcases Nat.eq_zero_or_pos N.card with hn | hn
  · have hN : N = ∅ := Finset.card_eq_zero.mp hn
    subst hN
    simp [shapleyValue]
  have hsplit : ∑ i ∈ N, shapleyValue N v i
      = (∑ i ∈ N, ∑ S ∈ (N.erase i).powerset,
          shapleyWeight N.card S.card * v (insert i S))
        - ∑ i ∈ N, ∑ S ∈ (N.erase i).powerset, shapleyWeight N.card S.card * v S := by
    rw [← Finset.sum_sub_distrib]
    refine Finset.sum_congr rfl fun i _ => ?_
    unfold shapleyValue
    rw [← Finset.sum_sub_distrib]
    refine Finset.sum_congr rfl fun S _ => ?_
    ring
  rw [hsplit]
  have hBswap : ∑ i ∈ N, ∑ S ∈ (N.erase i).powerset, shapleyWeight N.card S.card * v S
      = ∑ S ∈ N.powerset, ∑ i ∈ N \ S, shapleyWeight N.card S.card * v S := by
    refine Finset.sum_comm' ?_
    intro i S
    simp only [Finset.mem_powerset, Finset.subset_erase, Finset.mem_sdiff]
    tauto
  have hB : ∑ i ∈ N, ∑ S ∈ (N.erase i).powerset, shapleyWeight N.card S.card * v S
      = ∑ S ∈ N.powerset, ((N.card - S.card : ℕ) : ℚ) * (shapleyWeight N.card S.card * v S) := by
    rw [hBswap]
    refine Finset.sum_congr rfl fun S hS => ?_
    rw [Finset.sum_const, Finset.card_sdiff (Finset.mem_powerset.mp hS), nsmul_eq_mul]
  have hreindex : ∀ i ∈ N,
      ∑ S ∈ (N.erase i).powerset, shapleyWeight N.card S.card * v (insert i S)
        = ∑ T ∈ N.powerset.filter (fun T => i ∈ T),
            shapleyWeight N.card (T.card - 1) * v T := by
    intro i hi
    refine Finset.sum_nbij' (fun S => insert i S) (fun T => T.erase i) ?_ ?_ ?_ ?_ ?_
    · intro S hS
      rw [Finset.mem_powerset, Finset.subset_erase] at hS
      rw [Finset.mem_filter, Finset.mem_powerset]
      exact ⟨Finset.insert_subset hi hS.1, Finset.mem_insert_self i S⟩
    · intro T hT
      rw [Finset.mem_filter, Finset.mem_powerset] at hT
      rw [Finset.mem_powerset]
      exact Finset.erase_subset_erase i hT.1
    · intro S hS
      rw [Finset.mem_powerset, Finset.subset_erase] at hS
      exact Finset.erase_insert hS.2
    · intro T hT
      rw [Finset.mem_filter] at hT
      exact Finset.insert_erase hT.2
    · intro S hS
      rw [Finset.mem_powerset, Finset.subset_erase] at hS
      rw [Finset.card_insert_of_not_mem hS.2]
      simp
  have hA : ∑ i ∈ N, ∑ S ∈ (N.erase i).powerset,
        shapleyWeight N.card S.card * v (insert i S)
      = ∑ T ∈ N.powerset, (T.card : ℚ) * (shapleyWeight N.card (T.card - 1) * v T) := by
    rw [Finset.sum_congr rfl hreindex]
    have hAswap : ∑ i ∈ N, ∑ T ∈ N.powerset.filter (fun T => i ∈ T),
          shapleyWeight N.card (T.card - 1) * v T
        = ∑ T ∈ N.powerset, ∑ i ∈ T, shapleyWeight N.card (T.card - 1) * v T := by
      refine Finset.sum_comm' ?_
      intro i T
      simp only [Finset.mem_filter, Finset.mem_powerset]
      constructor
      · rintro ⟨hi, hT, hiT⟩
        exact ⟨hiT, hT⟩
      · rintro ⟨hiT, hT⟩
        exact ⟨hT hiT, hT, hiT⟩
    rw [hAswap]
    refine Finset.sum_congr rfl fun T _ => ?_
    rw [Finset.sum_const, nsmul_eq_mul]
  rw [hA, hB, ← Finset.sum_sub_distrib]
  have hcoeff : ∀ T ∈ N.powerset,
      (T.card : ℚ) * (shapleyWeight N.card (T.card - 1) * v T)
        - ((N.card - T.card : ℕ) : ℚ) * (shapleyWeight N.card T.card * v T)
      = (if T = N then v T else 0) + (if T = ∅ then -v T else 0) := by
    intro T hT
    have hTN : T ⊆ N := Finset.mem_powerset.mp hT
    by_cases h1 : T = N
    · subst h1
      have hne : T ≠ ∅ := by
        intro h
        rw [h] at hn
        simp at hn
      rw [if_pos rfl, if_neg hne]
      rw [Nat.sub_self]
      rw [← mul_assoc, ← mul_assoc]
      rw [weight_top T.card hn]
      push_cast
      ring
    · by_cases h2 : T = ∅
      · subst h2
        rw [if_neg h1, if_pos rfl]
        rw [Finset.card_empty, Nat.sub_zero]
        rw [← mul_assoc, ← mul_assoc]
        rw [weight_bot N.card hn]
        push_cast
        ring
      · rw [if_neg h1, if_neg h2]
        have hpos : 0 < T.card := Finset.card_pos.mpr (Finset.nonempty_iff_ne_empty.mpr h2)
        have hlt : T.card < N.card := Finset.card_lt_card (Finset.ssubset_iff_subset_ne.mpr ⟨hTN, h1⟩)
        rw [← mul_assoc, ← mul_assoc]
        rw [weight_mid N.card T.card hpos hlt]
        ring
  rw [Finset.sum_congr rfl hcoeff, Finset.sum_add_distrib]
  rw [Finset.sum_ite_eq' N.powerset N (fun T => v T)]
  rw [Finset.sum_ite_eq' N.powerset ∅ (fun T => -v T)]
  rw [if_pos (Finset.mem_powerset_self N), if_pos (Finset.empty_mem_powerset N)]
  ring

/-! ### The operator list and the structure of `compute`'s output -/

theorem mem_dedupFirst {a : String} {l : List String} : a ∈ dedupFirst l ↔ a ∈ l := by
  induction l with
  | nil => simp [dedupFirst]
  | cons b l ih =>
    simp only [dedupFirst, List.mem_cons, List.mem_filter, decide_eq_true_eq]
    by_cases h : a = b
    · simp [h]
    · simp [h, ih]

theorem dedupFirst_nodup (l : List String) : (dedupFirst l).Nodup := by
  induction l with
  | nil => simp [dedupFirst]
  | cons b l ih =>
    refine List.Nodup.cons ?_ (List.Nodup.filter _ ih)
    intro hmem
    rcases List.mem_filter.mp hmem with ⟨_, hne⟩
    simp at hne

theorem operatorsOf_nodup (inp : ShapleyInput) : (operatorsOf inp).Nodup :=
  dedupFirst_nodup _

theorem list_sum_div (l : List ℚ) (c : ℚ) : (l.map (fun x => x / c)).sum = l.sum / c := by
  induction l with
  | nil => simp
  | cons a l ih => simp [ih, add_div]

theorem normalize_map_operator (raw : List (String × ℚ)) :
    (normalize raw).map OperatorValue.operator = raw.map Prod.fst := by
  simp [normalize]

theorem normalize_map_value (raw : List (String × ℚ)) :
    (normalize raw).map OperatorValue.value = raw.map Prod.snd := by
  simp [normalize]

theorem rawShapley_map_fst (inp : ShapleyInput) :
    (rawShapley inp).map Prod.fst = operatorsOf inp := by
  simp [rawShapley, Function.comp_def]

/-- The total of the raw Shapley values telescopes to the difference between
the grand coalition's value and the empty coalition's value. -/
theorem rawShapley_sum (inp : ShapleyInput) :
    ((rawShapley inp).map Prod.snd).sum
      = coalitionValue inp (operatorsOf inp).toFinset - coalitionValue inp ∅ := by
  have h : ((rawShapley inp).map Prod.snd).sum
      = ∑ i ∈ (operatorsOf inp).toFinset,
          shapleyValue (operatorsOf inp).toFinset (coalitionValue inp) i := by
    rw [List.sum_toFinset _ (operatorsOf_nodup inp)]
    simp [rawShapley, Function.comp_def]
  rw [h, sum_shapleyValue]

theorem compute_eq_ok {bound : ℕ} {inp : ShapleyInput} {out : List OperatorValue}
    (h : compute bound inp = .ok out) :
    validInput inp = true ∧ ¬ bound < (operatorsOf inp).length ∧
      out = normalize (rawShapley inp) := by
  unfold compute at h
  by_cases h1 : validInput inp = false
  · rw [if_pos h1] at h
    cases h
  · rw [if_neg h1] at h
    by_cases h2 : bound < (operatorsOf inp).length
    · rw [if_pos h2] at h
      cases h
    · rw [if_neg h2] at h
      refine ⟨by simpa using h1, h2, ?_⟩
      cases h
      rfl

/-! ### Nonnegativity of capacities along paths -/

theorem mem_of_mem_pathsFor {edges : List Edge} {a b : String} {p : List Edge}
    (hp : p ∈ pathsFor edges a b) {e : Edge} (he : e ∈ p) : e ∈ edges := by
  rcases List.mem_filter.mp hp with ⟨hseq, -⟩
  rcases mem_edgeSeqs.mp hseq with ⟨s, hs, hperm⟩
  exact hs.subset (hperm.subset he)

theorem availableEdges_cap_nonneg {inp : ShapleyInput} {S : Finset String}
    (hpriv : ∀ l ∈ inp.private_links, 0 ≤ l.capacity)
    (hpub : ∀ l ∈ inp.public_links, 0 ≤ l.capacity)
    (hup : 0 ≤ inp.operator_uptime) :
    ∀ e ∈ availableEdges inp S, 0 ≤ e.cap := by
  intro e he
  rcases List.mem_append.mp he with h | h
  · rcases List.mem_map.mp h with ⟨l, hl, rfl⟩
    exact hpub l hl
  · rcases List.mem_map.mp h with ⟨l, hl, rfl⟩
    exact mul_nonneg (hpriv l (List.mem_of_mem_filter hl)) hup

theorem bottleneck_nonneg (p : List Edge) (h : ∀ e ∈ p, 0 ≤ e.cap) : 0 ≤ bottleneck p := by
  induction p with
  | nil => simp [bottleneck]
  | cons e q ih =>
    cases q with
    | nil => simpa [bottleneck] using h e (by simp)
    | cons e2 q2 =>
      rw [bottleneck]
      refine le_min (h e (by simp)) (ih ?_)
      intro x hx
      exact h x (List.mem_cons_of_mem _ hx)

/-! ### Concrete inputs used by the claims -/

/-- Scenario B topology: a single operator `op1` owning the only link on the
sole viable path for one demand, with neutral tuning parameters. -/
def singleOwnerInput (V C : ℚ) : ShapleyInput :=
  { private_links := [⟨"DA", "DB", "op1", C, 1⟩]
    devices := [⟨"DA", "L1"⟩, ⟨"DB", "L2"⟩]
    demands := [⟨"DA", "DB", V⟩]
    public_links := []
    operator_uptime := 1
    contiguity_bonus := 0
    demand_multiplier := 1 }

theorem singleOwner_valid (V C : ℚ) : validInput (singleOwnerInput V C) = true := by
  simp [validInput, singleOwnerInput, deviceIds]

theorem singleOwner_ops (V C : ℚ) : operatorsOf (singleOwnerInput V C) = ["op1"] := by
  simp [operatorsOf, singleOwnerInput, dedupFirst]

theorem singleOwner_v_empty (V C : ℚ) : coalitionValue (singleOwnerInput V C) ∅ = 0 := by
  simp [coalitionValue, demandContribution, singleOwnerInput, pathsFor, availableEdges,
    edgeSeqs, listMax, chainOk, List.sublists, List.permutations']

theorem singleOwner_v_full (V C : ℚ) (hV : 0 < V) (hVC : V ≤ C) :
    coalitionValue (singleOwnerInput V C) {"op1"} = V := by
  simp [coalitionValue, demandContribution, singleOwnerInput, pathsFor, availableEdges,
    edgeSeqs, listMax, chainOk, List.sublists, List.permutations', privateEdge, pathScore,
    bottleneck, contiguous, pathOwners]
  rw [inf_eq_right.mpr hVC, sup_eq_left.mpr hV.le]

theorem singleOwner_shapley (V C : ℚ) (hV : 0 < V) (hVC : V ≤ C) :
    shapleyValue (({"op1"} : Finset String)) (coalitionValue (singleOwnerInput V C)) "op1"
      = V := by
  rw [shapleyValue]
  rw [show (({"op1"} : Finset String).erase "op1") = ∅ from by decide]
  rw [Finset.powerset_empty, Finset.sum_singleton]
  rw [show (insert "op1" (∅ : Finset String)) = {"op1"} from rfl]
  rw [singleOwner_v_empty, singleOwner_v_full V C hV hVC]
  rw [show (({"op1"} : Finset String).card) = 1 from rfl]
  rw [show (Finset.card (∅ : Finset String)) = 0 from rfl]
  rw [shapleyWeight]
  norm_num [Nat.factorial]

theorem singleOwner_compute (V C : ℚ) (hV : 0 < V) (hVC : V ≤ C) :
    compute 20 (singleOwnerInput V C) = .ok [⟨"op1", V, 1⟩] := by
  rw [compute, singleOwner_valid, if_neg (by simp)]
  rw [singleOwner_ops]
  rw [if_neg (by norm_num)]
  rw [rawShapley, singleOwner_ops]
  simp only [List.map_cons, List.map_nil]
  rw [show ((["op1"] : List String).toFinset) = {"op1"} from rfl]
  rw [singleOwner_shapley V C hV hVC]
  rw [normalize]
  simp only [List.map_cons, List.map_nil, List.sum_cons, List.sum_nil, add_zero]
  rw [if_pos hV]
  rw [div_self hV.ne']

/-- A topology where a public link already satisfies the only demand, and one
operator owns a redundant private link: the empty coalition has value `5`. -/
def exC1 : ShapleyInput :=
  { private_links := [⟨"NA", "NB", "p", 10, 1⟩]
    devices := [⟨"NA", "L1"⟩, ⟨"NB", "L2"⟩]
    demands := [⟨"NA", "NB", 5⟩]
    public_links := [⟨"NA", "NB", 10, 1⟩]
    operator_uptime := 1
    contiguity_bonus := 0
    demand_multiplier := 1 }

theorem exC1_valid : validInput exC1 = true := by
  simp [validInput, exC1, deviceIds]

theorem exC1_ops : operatorsOf exC1 = ["p"] := by
  simp [operatorsOf, exC1, dedupFirst]

theorem exC1_v_empty : coalitionValue exC1 ∅ = 5 := by
  simp [coalitionValue, demandContribution, exC1, pathsFor, availableEdges,
    edgeSeqs, listMax, chainOk, List.sublists, List.permutations', publicEdge, privateEdge,
    pathScore, bottleneck, contiguous, pathOwners]
  norm_num

theorem exC1_v_full : coalitionValue exC1 {"p"} = 5 := by
  simp [coalitionValue, demandContribution, exC1, pathsFor, availableEdges,
    edgeSeqs, listMax, chainOk, List.sublists, List.permutations', publicEdge, privateEdge,
    pathScore, bottleneck, contiguous, pathOwners]
  norm_num

theorem exC1_compute : compute 20 exC1 = .ok [⟨"p", 0, 0⟩] := by
  rw [compute, exC1_valid, if_neg (by simp)]
  rw [exC1_ops]
  rw [if_neg (by norm_num)]
  rw [rawShapley, exC1_ops]
  simp only [List.map_cons, List.map_nil]
  rw [show ((["p"] : List String).toFinset) = {"p"} from rfl]
  rw [shapleyValue]
  rw [show (({"p"} : Finset String).erase "p") = ∅ from by decide]
  rw [Finset.powerset_empty, Finset.sum_singleton]
  rw [show (insert "p" (∅ : Finset String)) = {"p"} from rfl]
  rw [exC1_v_empty, exC1_v_full]
  rw [normalize]
  norm_num

/-- Scenario A topology: zero private links, one public link fully satisfying
the demand.  There are no operators. -/
def publicOnlyInput : ShapleyInput :=
  { private_links := []
    devices := [⟨"NA", "L1"⟩, ⟨"NB", "L2"⟩]
    demands := [⟨"NA", "NB", 5⟩]
    public_links := [⟨"NA", "NB", 10, 1⟩]
    operator_uptime := 1
    contiguity_bonus := 0
    demand_multiplier := 1 }

theorem publicOnly_valid : validInput publicOnlyInput = true := by
  simp [validInput, publicOnlyInput, deviceIds]

/-- An invalid input: the only demand references devices that are absent from
the (empty) device list. -/
def badInput : ShapleyInput :=
  { private_links := []
    devices := []
    demands := [⟨"NX", "NY", 1⟩]
    public_links := []
    operator_uptime := 1
    contiguity_bonus := 0
    demand_multiplier := 1 }

/-! ### Claims -/

/-- C1 (counterexample): the efficiency claim as stated — the sum of the raw
Shapley values produced by `compute` equals the value of the full operator
set — fails on the concrete input `exC1`, where the public link alone already
satisfies the demand: the raw values sum to `0` while the full coalition's
value is `5`. -/
theorem C1_counterexample :
    compute 20 exC1 = .ok [⟨"p", 0, 0⟩] ∧
    (([⟨"p", 0, 0⟩] : List OperatorValue).map OperatorValue.value).sum ≠
      coalitionValue exC1 (operatorsOf exC1).toFinset := by
  refine ⟨exC1_compute, ?_⟩
  rw [exC1_ops]
  rw [show ((["p"] : List String).toFinset) = {"p"} from rfl]
  rw [exC1_v_full]
  norm_num

/-- C1 (amended): for every successful computation, the sum of the raw
Shapley values equals the value of the full operator set minus the value of
the empty coalition, exactly; in particular it equals the full coalition's
value whenever the public links alone yield zero value. -/
theorem C1_efficiency_amended {bound : ℕ} {inp : ShapleyInput}
    {out : List OperatorValue} (h : compute bound inp = .ok out) :
    (out.map OperatorValue.value).sum
      = coalitionValue inp (operatorsOf inp).toFinset - coalitionValue inp ∅ := by
  obtain ⟨-, -, hout⟩ := compute_eq_ok h
  subst hout
  rw [normalize_map_value, rawShapley_sum]

/-- C1 (witness): the amended efficiency identity evaluated on `exC1`. -/
theorem C1_efficiency_amended_witness :
    compute 20 exC1 = .ok [⟨"p", 0, 0⟩] ∧
    (([⟨"p", 0, 0⟩] : List OperatorValue).map OperatorValue.value).sum
      = coalitionValue exC1 (operatorsOf exC1).toFinset - coalitionValue exC1 ∅ :=
  ⟨exC1_compute, C1_efficiency_amended exC1_compute⟩

/-- C2: the coalition value function is monotone: for every input, every
subset `S` of operators and every larger coalition `T ⊇ S`, the value of `S`
is at most the value of `T` (in particular adding one operator `i ∉ S` can
only increase the value). -/
theorem C2_monotonicity {inp : ShapleyInput} {S T : Finset String} (h : S ⊆ T) :
    coalitionValue inp S ≤ coalitionValue inp T :=
  coalitionValue_mono h

/-- C2 (witness): monotonicity evaluated on `exC1` with `∅ ⊆ {"p"}`. -/
theorem C2_monotonicity_witness :
    (∅ : Finset String) ⊆ {"p"} ∧
    coalitionValue exC1 ∅ ≤ coalitionValue exC1 {"p"} :=
  ⟨by decide, C2_monotonicity (by decide)⟩

/-- C3: normalization policy.  For every successful computation, if the total
of raw values is positive then each proportion is `value / total` and the
proportions sum to `1` exactly; if the total is `≤ 0`, every proportion is
`0` (and the computation still succeeded, so no error was raised). -/
theorem C3_normalization {bound : ℕ} {inp : ShapleyInput} {out : List OperatorValue}
    (h : compute bound inp = .ok out) :
    (0 < (out.map OperatorValue.value).sum →
      (∀ ov ∈ out, ov.proportion = ov.value / (out.map OperatorValue.value).sum) ∧
      (out.map OperatorValue.proportion).sum = 1) ∧
    ((out.map OperatorValue.value).sum ≤ 0 → ∀ ov ∈ out, ov.proportion = 0) := by
  obtain ⟨-, -, hout⟩ := compute_eq_ok h
  subst hout
  rw [normalize_map_value]
  constructor
  · intro hpos
    constructor
    · intro ov hov
      rw [normalize] at hov
      rcases List.mem_map.mp hov with ⟨p, hp, rfl⟩
      simp only [OperatorValue.proportion, OperatorValue.value]
      rw [if_pos hpos]
    · have h1 : (normalize (rawShapley inp)).map OperatorValue.proportion
          = (rawShapley inp).map (fun p => p.2 / ((rawShapley inp).map Prod.snd).sum) := by
        simp only [normalize, List.map_map]
        refine List.map_congr_left fun p hp => ?_
        simp only [Function.comp_apply]
        rw [if_pos hpos]
      rw [h1]
      have h2 : (rawShapley inp).map (fun p => p.2 / ((rawShapley inp).map Prod.snd).sum)
          = ((rawShapley inp).map Prod.snd).map
              (fun x => x / ((rawShapley inp).map Prod.snd).sum) := by
        rw [List.map_map]
        rfl
      rw [h2, list_sum_div, div_self hpos.ne']
  · intro hle ov hov
    rw [normalize] at hov
    rcases List.mem_map.mp hov with ⟨p, hp, rfl⟩
    simp only [OperatorValue.proportion]
    rw [if_neg (not_lt.mpr hle)]

/-- C3 (witness): the normalization policy evaluated on the successful run
`compute 20 (singleOwnerInput 5 10)`. -/
theorem C3_normalization_witness :
    compute 20 (singleOwnerInput 5 10) = .ok [⟨"op1", 5, 1⟩] ∧
    ((0 < (([⟨"op1", 5, 1⟩] : List OperatorValue).map OperatorValue.value).sum →
      (∀ ov ∈ ([⟨"op1", 5, 1⟩] : List OperatorValue),
        ov.proportion = ov.value /
          (([⟨"op1", 5, 1⟩] : List OperatorValue).map OperatorValue.value).sum) ∧
      (([⟨"op1", 5, 1⟩] : List OperatorValue).map OperatorValue.proportion).sum = 1) ∧
    ((([⟨"op1", 5, 1⟩] : List OperatorValue).map OperatorValue.value).sum ≤ 0 →
      ∀ ov ∈ ([⟨"op1", 5, 1⟩] : List OperatorValue), ov.proportion = 0)) :=
  ⟨singleOwner_compute 5 10 (by norm_num) (by norm_num),
   C3_normalization (singleOwner_compute 5 10 (by norm_num) (by norm_num))⟩

/-- C4: determinism and output order.  `compute` is a pure function, so two
invocations on identical input are definitionally identical; moreover the
output mapping lists exactly the operators in the deterministic order
established by the topology model (first appearance in the private-link
list). -/
theorem C4_determinism {bound : ℕ} {inp : ShapleyInput} {out : List OperatorValue}
    (h : compute bound inp = .ok out) :
    compute bound inp = compute bound inp ∧
    out.map OperatorValue.operator = operatorsOf inp := by
  refine ⟨rfl, ?_⟩
  obtain ⟨-, -, hout⟩ := compute_eq_ok h
  subst hout
  rw [normalize_map_operator, rawShapley_map_fst]

/-- C4 (witness): determinism and output order on `singleOwnerInput 5 10`. -/
theorem C4_determinism_witness :
    compute 20 (singleOwnerInput 5 10) = .ok [⟨"op1", 5, 1⟩] ∧
    (compute 20 (singleOwnerInput 5 10) = compute 20 (singleOwnerInput 5 10) ∧
      ([⟨"op1", 5, 1⟩] : List OperatorValue).map OperatorValue.operator
        = operatorsOf (singleOwnerInput 5 10)) :=
  ⟨singleOwner_compute 5 10 (by norm_num) (by norm_num),
   C4_determinism (singleOwner_compute 5 10 (by norm_num) (by norm_num))⟩

/-- C5: fail-fast overflow bound.  For every input that passes validation and
whose discovered operator count exceeds the configured bound, `compute`
returns `ComputationOverflowError` (an `Except.error`, so no partial output
is produced and no coalition is evaluated). -/
theorem C5_overflow {bound : ℕ} {inp : ShapleyInput} (hv : validInput inp = true)
    (h : bound < (operatorsOf inp).length) :
    compute bound inp = .error .computationOverflowError := by
  simp [compute, hv, h]

/-- C5 (witness): the overflow error on `singleOwnerInput 1 1` with bound 0. -/
theorem C5_overflow_witness :
    validInput (singleOwnerInput 1 1) = true ∧
    0 < (operatorsOf (singleOwnerInput 1 1)).length ∧
    compute 0 (singleOwnerInput 1 1) = .error .computationOverflowError :=
  ⟨singleOwner_valid 1 1, by rw [singleOwner_ops]; norm_num,
   C5_overflow (singleOwner_valid 1 1) (by rw [singleOwner_ops]; norm_num)⟩

/-- C6: eager validation.  For every input in which some link or demand
references a device identifier not in the device list, or some operator
identifier is empty, `compute` returns `ValidationError` (an `Except.error`,
before any valuation work and with no partial result). -/
theorem C6_validation {bound : ℕ} {inp : ShapleyInput}
    (h : (∃ l ∈ inp.private_links,
            l.device1 ∉ deviceIds inp ∨ l.device2 ∉ deviceIds inp ∨ l.owner = "") ∨
         (∃ l ∈ inp.public_links,
            l.device1 ∉ deviceIds inp ∨ l.device2 ∉ deviceIds inp) ∨
         (∃ d ∈ inp.demands, d.source ∉ deviceIds inp ∨ d.dest ∉ deviceIds inp)) :
    compute bound inp = .error .validationError := by
  have hv : ¬ validInput inp = true := by
    intro hvb
    simp only [validInput, Bool.and_eq_true, List.all_eq_true, decide_eq_true_eq] at hvb
    obtain ⟨⟨h1, h2⟩, h3⟩ := hvb
    rcases h with ⟨l, hl, hbad⟩ | ⟨l, hl, hbad⟩ | ⟨d, hd, hbad⟩
    · rcases h1 l hl with ⟨⟨ha, hb⟩, hc⟩
      tauto
    · rcases h2 l hl with ⟨ha, hb⟩
      tauto
    · rcases h3 d hd with ⟨ha, hb⟩
      tauto
  have hv2 : validInput inp = false := by
    cases hx : validInput inp
    · rfl
    · exact absurd hx hv
  simp [compute, hv2]

/-- C6 (witness): the validation error on `badInput`, whose demand references
unknown devices. -/
theorem C6_validation_witness :
    (∃ d ∈ badInput.demands,
      d.source ∉ deviceIds badInput ∨ d.dest ∉ deviceIds badInput) ∧
    compute 20 badInput = .error .validationError :=
  ⟨⟨⟨"NX", "NY", 1⟩, by simp [badInput], by simp [badInput, deviceIds]⟩,
   C6_validation (Or.inr (Or.inr
     ⟨⟨"NX", "NY", 1⟩, by simp [badInput], by simp [badInput, deviceIds]⟩))⟩

/-- C7: empty-operator degenerate case.  For every valid input whose
private-link list yields zero distinct operators, `compute` succeeds and
returns the empty mapping. -/
theorem C7_empty_operators {bound : ℕ} {inp : ShapleyInput}
    (hv : validInput inp = true) (hop : operatorsOf inp = []) :
    compute bound inp = .ok [] := by
  simp [compute, hv, hop, rawShapley, normalize]

/-- C7 (witness): Scenario A — zero private links, one public link satisfying
the demand — yields the empty mapping, not an error. -/
theorem C7_empty_operators_witness :
    validInput publicOnlyInput = true ∧
    operatorsOf publicOnlyInput = [] ∧
    compute 5 publicOnlyInput = .ok [] :=
  ⟨publicOnly_valid, rfl, C7_empty_operators publicOnly_valid rfl⟩

/-- C8: Scenario B.  For every demand volume `0 < V ≤ C` over the
single-owner topology (demand multiplier 1, uptime 1, contiguity bonus 0),
the sole operator receives raw value `V` and proportion `1`. -/
theorem C8_single_owner {V C : ℚ} (hV : 0 < V) (hVC : V ≤ C) :
    compute 20 (singleOwnerInput V C) = .ok [⟨"op1", V, 1⟩] :=
  singleOwner_compute V C hV hVC

/-- C8 (witness): Scenario B at `V = 5`, `C = 10`. -/
theorem C8_single_owner_witness :
    (0 : ℚ) < 5 ∧ (5 : ℚ) ≤ 10 ∧
    compute 20 (singleOwnerInput 5 10) = .ok [⟨"op1", 5, 1⟩] :=
  ⟨by norm_num, by norm_num, C8_single_owner (by norm_num) (by norm_num)⟩

/-- C9: zero-volume demands.  For every topology with nonnegative capacities
and uptime and every coalition, a demand of volume `0` contributes exactly
`0` to the coalition's value (the valuator is total here: no error arises). -/
theorem C9_zero_volume {inp : ShapleyInput} {S : Finset String} {d : Demand}
    (hpriv : ∀ l ∈ inp.private_links, 0 ≤ l.capacity)
    (hpub : ∀ l ∈ inp.public_links, 0 ≤ l.capacity)
    (hup : 0 ≤ inp.operator_uptime)
    (hvol : d.volume = 0) :
    demandContribution inp S d = 0 := by
  unfold demandContribution
  refine le_antisymm (listMax_le le_rfl ?_) (listMax_nonneg _)
  intro x hx
  rcases List.mem_map.mp hx with ⟨p, hp, rfl⟩
  have hcap : ∀ e ∈ p, 0 ≤ e.cap := fun e he =>
    availableEdges_cap_nonneg hpriv hpub hup e (mem_of_mem_pathsFor hp he)
  rw [pathScore, hvol]
  rw [min_eq_right (bottleneck_nonneg p hcap)]
  simp

/-- C9 (witness): a zero-volume demand contributes `0` on the single-owner
topology under the empty coalition. -/
theorem C9_zero_volume_witness :
    (∀ l ∈ (singleOwnerInput 0 1).private_links, 0 ≤ l.capacity) ∧
    demandContribution (singleOwnerInput 0 1) ∅ ⟨"DA", "DB", 0⟩ = 0 :=
  ⟨by simp [singleOwnerInput],
   C9_zero_volume (by simp [singleOwnerInput]) (by simp [singleOwnerInput])
     (by simp [singleOwnerInput]) rfl⟩

/-- C10: adapter abort behavior.  If stdin cannot be read, or the input JSON
fails to parse, or `compute` returns an engine error, the adapter produces no
output at all; and whenever it does produce output, every stage succeeded and
the output is exactly `compute`'s result — never a partial or default one. -/
theorem C10_adapter_abort (parse : String → Option ShapleyInput) (bound : ℕ) :
    mainAdapter none parse bound = none ∧
    (∀ s, parse s = none → mainAdapter (some s) parse bound = none) ∧
    (∀ s inp e, parse s = some inp → compute bound inp = .error e →
      mainAdapter (some s) parse bound = none) ∧
    (∀ st out, mainAdapter st parse bound = some out →
      ∃ s inp, st = some s ∧ parse s = some inp ∧ compute bound inp = .ok out) := by
  refine ⟨rfl, ?_, ?_, ?_⟩
  · intro s hs
    simp [mainAdapter, hs]
  · intro s inp e hs hc
    simp [mainAdapter, hs, hc]
  · intro st out hout
    cases st with
    | none => simp [mainAdapter] at hout
    | some s =>
      cases hp : parse s with
      | none => simp [mainAdapter, hp] at hout
      | some inp =>
        cases hc : compute bound inp with
        | error e => simp [mainAdapter, hp, hc] at hout
        | ok o =>
          refine ⟨s, inp, rfl, hp, ?_⟩
          simp only [mainAdapter, hp, hc] at hout
          rw [hc, Option.some.inj hout]

/-- C10 (witness): the adapter emits nothing when stdin reading fails and
when parsing fails. -/
theorem C10_adapter_abort_witness :
    mainAdapter none (fun _ => none) 0 = none ∧
    mainAdapter (some "x") (fun _ => none) 0 = none :=
  ⟨(C10_adapter_abort (fun _ => none) 0).1,
   (C10_adapter_abort (fun _ => none) 0).2.1 "x" rfl⟩

end NetworkShapley
